import Mathlib

/-!
Verification of the two data-structure primitives of `src/libutil/types.hh`
of the nix repository:

* `BackedStringView` — a Cow-like wrapper holding either an owned
  `std::string` or a borrowed `std::string_view`;
* `ChunkedVector<T, ChunkSize>` — an append-only container storing elements
  in chunks of `ChunkSize` elements, with a `uint32_t` size counter and an
  abort guard when the index space is nearly exhausted.

The C++ classes are shallowly embedded below: strings and string views are
modelled by their byte contents (`String`), machine integers by `Nat` with
explicit `% 2 ^ 32` / `% 2 ^ 64` where C++ performs modular arithmetic,
`abort()` and undefined behaviour by explicit result constructors.
-/

namespace Nix

/-- Model of `nix::BackedStringView`: `data` is
`std::variant<std::string, std::string_view>`, with `Sum.inl` the owned
`std::string` alternative and `Sum.inr` the borrowed `std::string_view`
alternative, each modelled by its byte contents. -/
structure BackedStringView where
  data : String ⊕ String

/-- Constructor `BackedStringView(std::string && s): data(std::move(s))` —
takes ownership of the string. -/
def BackedStringView.ofString (s : String) : BackedStringView :=
  ⟨Sum.inl s⟩

/-- Constructor `BackedStringView(std::string_view sv): data(sv)` — borrows
the view. -/
def BackedStringView.ofStringView (sv : String) : BackedStringView :=
  ⟨Sum.inr sv⟩

/-- `isOwned`: `std::holds_alternative<std::string>(data)`. -/
def BackedStringView.isOwned (b : BackedStringView) : Bool :=
  b.data.isLeft

/-- `toOwned`: `isOwned() ? std::move(std::get<std::string>(data))
: std::string(std::get<std::string_view>(data))`; the copy constructor of
`std::string` preserves byte contents, so both arms are modelled by the
payload. -/
def BackedStringView.toOwned (b : BackedStringView) : String :=
  match b.data with
  | Sum.inl s => s
  | Sum.inr sv => sv

/-- `operator*`: `isOwned() ? std::get<std::string>(data)
: std::get<std::string_view>(data)`; the implicit conversion
`std::string → std::string_view` preserves byte contents. -/
def BackedStringView.view (b : BackedStringView) : String :=
  match b.data with
  | Sum.inl s => s
  | Sum.inr sv => sv

/-! ### ChunkedVector -/

/-- The value `std::numeric_limits<uint32_t>::max() - ChunkSize` computed by
`ChunkedVector::addChunk`: the `uint32_t` maximum and the `size_t` chunk size
are both converted to 64-bit unsigned integers and subtracted modulo
`2 ^ 64`. -/
def overflowThreshold (C : Nat) : Nat :=
  ((2 ^ 32 - 1) + (2 ^ 64 - C % 2 ^ 64)) % 2 ^ 64

/-- Model of `nix::ChunkedVector<T, ChunkSize>`: the `uint32_t` counter
`size_` and the chunk table `std::vector<std::vector<T>> chunks`. The chunk
size is passed to each operation as a parameter `C`. -/
structure ChunkedVector (T : Type) where
  size_ : Nat
  chunks : List (List T)
  deriving DecidableEq, Repr

/-- Result of `ChunkedVector::add`: either a normal return (the new state,
the reference to the stored element, and the assigned index), a call of
`abort()` inside `addChunk`, or undefined behaviour (`chunks.back()` on an
empty chunk table, which never happens for a constructed vector). -/
inductive AddResult (T : Type) where
  | ok (st : ChunkedVector T) (ref : T) (idx : Nat)
  | aborted
  | ub
  deriving DecidableEq, Repr

/-- `addChunk`: aborts when `size_ >= std::numeric_limits<uint32_t>::max() -
ChunkSize`, otherwise `chunks.emplace_back()` appends one new empty chunk
(the `reserve(ChunkSize)` call only affects capacity, not contents). -/
def ChunkedVector.addChunk? (C : Nat) (st : ChunkedVector T) :
    Option (ChunkedVector T) :=
  if overflowThreshold C ≤ st.size_ then none
  else some { st with chunks := st.chunks ++ [[]] }

/-- Constructor `ChunkedVector(uint32_t reserve)`: `chunks.reserve(reserve)`
(a pure allocation hint with no observable contents, hence the unused
parameter) followed by `addChunk()` on the empty table. -/
def ChunkedVector.new (T : Type) (C _reserve : Nat) :
    Option (ChunkedVector T) :=
  ChunkedVector.addChunk? C ⟨0, []⟩

/-- `size()`: returns the counter `size_`. -/
def ChunkedVector.size (st : ChunkedVector T) : Nat :=
  st.size_

/-- `add(T value)`: `idx = size_++` (with `uint32_t` wrap-around), then the
element is emplaced into `chunks.back()` if it has spare capacity and into a
freshly allocated chunk otherwise; returns the stored element and `idx`. -/
def ChunkedVector.add (C : Nat) (st : ChunkedVector T) (v : T) : AddResult T :=
  let idx := st.size_
  let st1 : ChunkedVector T := { st with size_ := (st.size_ + 1) % 2 ^ 32 }
  match st1.chunks.getLast? with
  | none => AddResult.ub
  | some back =>
    if back.length < C then
      AddResult.ok { st1 with chunks := st1.chunks.dropLast ++ [back ++ [v]] } v idx
    else
      match ChunkedVector.addChunk? C st1 with
      | none => AddResult.aborted
      | some st2 =>
        AddResult.ok { st2 with chunks := st2.chunks.dropLast ++ [[v]] } v idx

/-- `operator[](uint32_t idx)`: `chunks[idx / ChunkSize][idx % ChunkSize]`,
with the two unchecked accesses modelled by `Option`-valued lookups. -/
def ChunkedVector.get (C : Nat) (st : ChunkedVector T) (idx : Nat) : Option T :=
  (st.chunks.getD (idx / C) [])[idx % C]?

/-- The sequence of elements `forEach` passes to its visitor: the outer loop
runs over `chunks` in order and the inner loop over each chunk in order, so
the visited sequence is the concatenation of the chunks. -/
def ChunkedVector.forEachVisited (st : ChunkedVector T) : List T :=
  st.chunks.flatten

/-- Runs a sequence of `add` calls from a given state; `none` when some call
does not return normally (the process aborted, or undefined behaviour). -/
def ChunkedVector.runAdds (C : Nat) (st : ChunkedVector T) (vs : List T) :
    Option (ChunkedVector T) :=
  match vs with
  | [] => some st
  | v :: vs =>
    match st.add C v with
    | AddResult.ok st' _ _ => st'.runAdds C vs
    | _ => none

/-- The implicit representation invariant of `ChunkedVector`: the chunk
table is never empty, every chunk before the last holds exactly `C`
elements, the last chunk holds at most `C` elements, and the size counter
equals the total number of stored elements. -/
def ChunkedVector.Invariant (C : Nat) (st : ChunkedVector T) : Prop :=
  st.chunks ≠ [] ∧
  (∀ c ∈ st.chunks.dropLast, c.length = C) ∧
  (st.chunks.getLast?.getD []).length ≤ C ∧
  st.size_ = (st.chunks.map List.length).sum

/-- Strengthened inductive invariant used in the proofs: the chunk table
splits as `front ++ [last]` with all front chunks full, the last chunk is
empty only in the freshly constructed state, and every chunk was created
while the abort guard of `addChunk` still had head-room. -/
def ChunkedVector.InvS (C : Nat) (st : ChunkedVector T) : Prop :=
  ∃ front last, st.chunks = front ++ [last] ∧
    (∀ c ∈ front, c.length = C) ∧
    last.length ≤ C ∧
    (last = [] → front = []) ∧
    st.size_ = C * front.length + last.length ∧
    C * front.length < overflowThreshold C

/-! ### Lemmas about ChunkedVector -/

lemma overflowThreshold_eq {C : Nat} (h : C ≤ 2 ^ 32 - 1) :
    overflowThreshold C = 2 ^ 32 - 1 - C := by
  unfold overflowThreshold
  omega

lemma sum_map_length_const {T : Type} {C : Nat} {front : List (List T)}
    (h : ∀ c ∈ front, c.length = C) :
    (front.map List.length).sum = C * front.length := by
  induction front with
  | nil => simp
  | cons a l ih =>
    simp only [List.map_cons, List.sum_cons, List.length_cons]
    rw [h a (by simp), ih (fun c hc => h c (by simp [hc])), Nat.mul_succ]
    omega

lemma ChunkedVector.invS_invariant {T : Type} {C : Nat} {st : ChunkedVector T}
    (h : st.InvS C) : st.Invariant C := by
  obtain ⟨front, last, hch, hfront, hlast, _, hsz, _⟩ := h
  refine ⟨by simp [hch], ?_, ?_, ?_⟩
  · rw [hch, List.dropLast_concat]
    exact hfront
  · rw [hch, List.getLast?_concat]
    exact hlast
  · rw [hch, hsz, List.map_append, List.sum_append]
    simp [sum_map_length_const hfront]

lemma ChunkedVector.size_lt_of_invS {T : Type} {C : Nat} {st : ChunkedVector T}
    (hC2 : C ≤ 2 ^ 32 - 2) (h : st.InvS C) : st.size_ + 1 < 2 ^ 32 := by
  obtain ⟨front, last, _, _, hlast, _, hsz, hthr⟩ := h
  rw [overflowThreshold_eq (by omega)] at hthr
  have : st.size_ ≤ C * front.length + C := by omega
  generalize C * front.length = A at *
  omega

lemma ChunkedVector.add_eq_not_full {T : Type} {C : Nat} (front : List (List T))
    (last : List T) (size : Nat) (v : T) (hlen : last.length < C) :
    ChunkedVector.add C ⟨size, front ++ [last]⟩ v =
      AddResult.ok ⟨(size + 1) % 2 ^ 32, front ++ [last ++ [v]]⟩ v size := by
  simp [ChunkedVector.add, List.getLast?_concat, List.dropLast_concat, hlen]

lemma ChunkedVector.add_eq_full_abort {T : Type} {C : Nat} (front : List (List T))
    (last : List T) (size : Nat) (v : T)
    (hlen : ¬ last.length < C)
    (hthr : overflowThreshold C ≤ (size + 1) % 2 ^ 32) :
    ChunkedVector.add C ⟨size, front ++ [last]⟩ v = AddResult.aborted := by
  have hthr' : overflowThreshold C ≤ (size + 1) % 4294967296 := hthr
  simp [ChunkedVector.add, ChunkedVector.addChunk?, List.getLast?_concat, hlen]
  rw [if_pos hthr']

lemma ChunkedVector.add_eq_full_ok {T : Type} {C : Nat} (front : List (List T))
    (last : List T) (size : Nat) (v : T)
    (hlen : ¬ last.length < C)
    (hthr : ¬ overflowThreshold C ≤ (size + 1) % 2 ^ 32) :
    ChunkedVector.add C ⟨size, front ++ [last]⟩ v =
      AddResult.ok ⟨(size + 1) % 2 ^ 32, (front ++ [last]) ++ [[v]]⟩ v size := by
  have hthr' : ¬ overflowThreshold C ≤ (size + 1) % 4294967296 := hthr
  simp [ChunkedVector.add, ChunkedVector.addChunk?, List.getLast?_concat, hlen]
  rw [if_neg hthr']
  simp [List.dropLast_append_of_ne_nil]

lemma ChunkedVector.invS_add_ok {T : Type} {C : Nat} {st : ChunkedVector T}
    (hC : 0 < C) (hC2 : C ≤ 2 ^ 32 - 2) (h : st.InvS C) (v : T) :
    ∀ st' r idx, st.add C v = AddResult.ok st' r idx →
      st'.InvS C ∧ st'.size_ = st.size_ + 1 ∧ r = v ∧ idx = st.size_ ∧
      st'.forEachVisited = st.forEachVisited ++ [v] := by
  intro st' r idx hok
  have hsz : st.size_ + 1 < 2 ^ 32 := ChunkedVector.size_lt_of_invS hC2 h
  obtain ⟨front, last, hch, hfront, hlast, hemp, hsize, hthr⟩ := h
  have hstex : st = ⟨st.size_, front ++ [last]⟩ := by
    cases st
    simp_all
  by_cases hlen : last.length < C
  · rw [hstex, ChunkedVector.add_eq_not_full front last st.size_ v hlen,
      Nat.mod_eq_of_lt hsz] at hok
    cases hok
    refine ⟨⟨front, last ++ [v], rfl, hfront, ?_, by simp, ?_, hthr⟩, rfl, rfl, rfl, ?_⟩
    · simp only [List.length_append, List.length_singleton]
      omega
    · simp only [List.length_append, List.length_singleton]
      omega
    · simp [ChunkedVector.forEachVisited, hch]
  · have hlenC : last.length = C := by omega
    have hthr' : ¬ overflowThreshold C ≤ (st.size_ + 1) % 2 ^ 32 := by
      intro hcon
      rw [hstex, ChunkedVector.add_eq_full_abort front last st.size_ v hlen hcon] at hok
      cases hok
    rw [hstex, ChunkedVector.add_eq_full_ok front last st.size_ v hlen hthr',
      Nat.mod_eq_of_lt hsz] at hok
    cases hok
    rw [Nat.mod_eq_of_lt hsz] at hthr'
    refine ⟨⟨front ++ [last], [v], by simp, ?_, by simpa using hC, by simp, ?_, ?_⟩,
      rfl, rfl, rfl, ?_⟩
    · intro c hc
      rcases List.mem_append.mp hc with hc | hc
      · exact hfront c hc
      · simp only [List.mem_singleton] at hc
        rw [hc, hlenC]
    · simp only [List.length_append, List.length_singleton, Nat.mul_succ]
      omega
    · simp only [List.length_append, List.length_singleton, Nat.mul_succ]
      generalize C * front.length = A at *
      omega
    · simp [ChunkedVector.forEachVisited, hch]

lemma ChunkedVector.add_aborted_iff {T : Type} {C : Nat} {st : ChunkedVector T}
    (hC : 0 < C) (hC2 : C ≤ 2 ^ 32 - 2) (h : st.InvS C) (v : T) :
    st.add C v = AddResult.aborted ↔
      0 < st.size_ ∧ C ∣ st.size_ ∧ overflowThreshold C ≤ st.size_ + 1 := by
  have hsz : st.size_ + 1 < 2 ^ 32 := ChunkedVector.size_lt_of_invS hC2 h
  obtain ⟨front, last, hch, hfront, hlast, hemp, hsize, hthr⟩ := h
  have hstex : st = ⟨st.size_, front ++ [last]⟩ := by
    cases st
    simp_all
  by_cases hlen : last.length < C
  · rw [hstex, ChunkedVector.add_eq_not_full front last st.size_ v hlen]
    constructor
    · intro hcon
      cases hcon
    · rintro ⟨hpos, hdvd, -⟩
      have hdl : C ∣ last.length := by
        rw [hsize] at hdvd
        exact (Nat.dvd_add_right (dvd_mul_right C front.length)).mp hdvd
      have hl0 : last.length = 0 := Nat.eq_zero_of_dvd_of_lt hdl hlen
      have : front = [] := hemp (List.length_eq_zero.mp hl0)
      rw [hsize, this, hl0] at hpos
      simp at hpos
  · have hlenC : last.length = C := by omega
    constructor
    · intro hab
      by_cases hthr2 : overflowThreshold C ≤ (st.size_ + 1) % 2 ^ 32
      · rw [Nat.mod_eq_of_lt hsz] at hthr2
        refine ⟨?_, ?_, hthr2⟩
        · rw [hsize, hlenC]
          have : 0 < C := hC
          omega
        · rw [hsize, hlenC, ← Nat.mul_succ]
          exact Dvd.intro _ rfl
      · rw [hstex, ChunkedVector.add_eq_full_ok front last st.size_ v hlen hthr2]
          at hab
        cases hab
    · rintro ⟨-, -, hthr2⟩
      rw [hstex]
      refine ChunkedVector.add_eq_full_abort front last st.size_ v hlen ?_
      rw [Nat.mod_eq_of_lt hsz]
      exact hthr2

lemma ChunkedVector.add_ok_or_aborted {T : Type} {C : Nat} {st : ChunkedVector T}
    (h : st.InvS C) (v : T) :
    (∃ st' r idx, st.add C v = AddResult.ok st' r idx) ∨
      st.add C v = AddResult.aborted := by
  obtain ⟨front, last, hch, -, -, -, -, -⟩ := h
  have hstex : st = ⟨st.size_, front ++ [last]⟩ := by
    cases st
    simp_all
  by_cases hlen : last.length < C
  · exact Or.inl ⟨_, _, _, by rw [hstex]; exact
      ChunkedVector.add_eq_not_full front last st.size_ v hlen⟩
  · by_cases hthr : overflowThreshold C ≤ (st.size_ + 1) % 2 ^ 32
    · exact Or.inr (by rw [hstex]; exact
        ChunkedVector.add_eq_full_abort front last st.size_ v hlen hthr)
    · exact Or.inl ⟨_, _, _, by rw [hstex]; exact
        ChunkedVector.add_eq_full_ok front last st.size_ v hlen hthr⟩

lemma ChunkedVector.runAdds_invS {T : Type} {C : Nat}
    (hC : 0 < C) (hC2 : C ≤ 2 ^ 32 - 2) :
    ∀ (vs : List T) (st st' : ChunkedVector T), st.InvS C →
      st.runAdds C vs = some st' →
      st'.InvS C ∧ st'.size_ = st.size_ + vs.length ∧
        st'.forEachVisited = st.forEachVisited ++ vs := by
  intro vs
  induction vs with
  | nil =>
    intro st st' h hrun
    simp only [ChunkedVector.runAdds, Option.some.injEq] at hrun
    subst hrun
    simp [h]
  | cons v vs ih =>
    intro st st' h hrun
    simp only [ChunkedVector.runAdds] at hrun
    rcases hadd : st.add C v with ⟨st1, r, idx⟩ | - | -
    · rw [hadd] at hrun
      obtain ⟨h1, h2, -, -, h5⟩ := ChunkedVector.invS_add_ok hC hC2 h v st1 r idx hadd
      obtain ⟨g1, g2, g3⟩ := ih st1 st' h1 hrun
      refine ⟨g1, by simp only [List.length_cons]; omega, ?_⟩
      rw [g3, h5]
      simp
    · rw [hadd] at hrun
      cases hrun
    · rw [hadd] at hrun
      cases hrun

lemma ChunkedVector.new_eq {T : Type} {C r : Nat} {st0 : ChunkedVector T}
    (h : ChunkedVector.new T C r = some st0) :
    st0 = ⟨0, [[]]⟩ ∧ 0 < overflowThreshold C := by
  simp only [ChunkedVector.new, ChunkedVector.addChunk?] at h
  by_cases h0 : overflowThreshold C ≤ 0
  · rw [if_pos h0] at h
    cases h
  · rw [if_neg h0] at h
    simp only [Option.some.injEq] at h
    exact ⟨h.symm, by omega⟩

lemma ChunkedVector.invS_new {T : Type} {C : Nat}
    (hthr : 0 < overflowThreshold C) :
    (⟨0, [[]]⟩ : ChunkedVector T).InvS C := by
  exact ⟨[], [], rfl, by simp, by simp, fun _ => rfl, by simp, by simpa using hthr⟩

lemma ChunkedVector.reach {T : Type} {C r : Nat}
    {st0 st : ChunkedVector T} {vs : List T}
    (hC : 0 < C) (hC2 : C ≤ 2 ^ 32 - 2)
    (hnew : ChunkedVector.new T C r = some st0)
    (hrun : st0.runAdds C vs = some st) :
    st.InvS C ∧ st.size_ = vs.length ∧ st.forEachVisited = vs := by
  obtain ⟨h0, hthr⟩ := ChunkedVector.new_eq hnew
  subst h0
  obtain ⟨h1, h2, h3⟩ := ChunkedVector.runAdds_invS hC hC2 vs _ st
    (ChunkedVector.invS_new hthr) hrun
  refine ⟨h1, by simpa using h2, ?_⟩
  rw [h3]
  simp [ChunkedVector.forEachVisited]

lemma flatten_getD_getElem {T : Type} {C : Nat} (hC : 0 < C) :
    ∀ (front : List (List T)) (last : List T), (∀ c ∈ front, c.length = C) →
      last.length ≤ C → ∀ i : Nat,
      ((front ++ [last]).getD (i / C) [])[i % C]? = (front ++ [last]).flatten[i]? := by
  intro front
  induction front with
  | nil =>
    intro last _ hlast i
    by_cases hi : i < C
    · rw [Nat.div_eq_of_lt hi, Nat.mod_eq_of_lt hi]
      simp
    · have h1 : 0 < i / C := Nat.div_pos (by omega) hC
      rcases Nat.exists_eq_add_of_lt h1 with ⟨k, hk⟩
      rw [hk]
      simp only [List.nil_append, List.flatten_cons, List.flatten_nil,
        List.append_nil, Nat.zero_add, List.getD_cons_succ, List.getD_nil]
      rw [List.getElem?_eq_none (by simp), List.getElem?_eq_none (by omega)]
  | cons c front ih =>
    intro last hfront hlast i
    have hc : c.length = C := hfront c (by simp)
    by_cases hi : i < C
    · rw [Nat.div_eq_of_lt hi, Nat.mod_eq_of_lt hi]
      simp only [List.cons_append, List.getD_cons_zero, List.flatten_cons]
      rw [List.getElem?_append_left (by omega)]
    · have hge : C ≤ i := by omega
      rw [Nat.div_eq_sub_div hC hge, Nat.mod_eq_sub_mod hge]
      simp only [List.cons_append, List.getD_cons_succ, List.flatten_cons]
      rw [List.getElem?_append_right (by omega), hc,
        ih last (fun d hd => hfront d (by simp [hd])) hlast (i - C)]

lemma ChunkedVector.get_eq_visited {T : Type} {C : Nat} {st : ChunkedVector T}
    (hC : 0 < C) (h : st.InvS C) :
    ∀ i : Nat, st.get C i = st.forEachVisited[i]? := by
  intro i
  obtain ⟨front, last, hch, hfront, hlast, -, -, -⟩ := h
  rw [ChunkedVector.get, ChunkedVector.forEachVisited, hch]
  exact flatten_getD_getElem hC front last hfront hlast i

lemma ChunkedVector.chunks_length_of_invS {T : Type} {C : Nat}
    {st : ChunkedVector T} (hC : 0 < C) (h : st.InvS C) :
    st.chunks.length = max 1 ((st.size_ + C - 1) / C) := by
  obtain ⟨front, last, hch, -, hlast, hemp, hsize, -⟩ := h
  rw [hch, List.length_append, List.length_singleton]
  by_cases hl0 : last.length = 0
  · have hfr : front = [] := hemp (List.length_eq_zero.mp hl0)
    rw [hsize, hfr, hl0]
    simp only [List.length_nil, Nat.mul_zero, Nat.zero_add]
    rw [Nat.div_eq_of_lt (by omega)]
    simp
  · have hkey : (st.size_ + C - 1) / C = front.length + 1 := by
      have harg : st.size_ + C - 1 = C * (front.length + 1) + (last.length - 1) := by
        rw [hsize, Nat.mul_succ]
        omega
      rw [harg, Nat.mul_add_div hC, Nat.div_eq_of_lt (by omega), Nat.add_zero]
    rw [hkey]
    simp

lemma ChunkedVector.runAdds_fill_first {T : Type} {C : Nat} (hC2 : C ≤ 2 ^ 32 - 2)
    (v : T) :
    ∀ n k : Nat, k + n ≤ C →
      ChunkedVector.runAdds C ⟨k, [List.replicate k v]⟩ (List.replicate n v) =
        some ⟨k + n, [List.replicate (k + n) v]⟩ := by
  intro n
  induction n with
  | zero =>
    intro k _
    simp [ChunkedVector.runAdds]
  | succ n ih =>
    intro k hk
    have hlen : (List.replicate k v).length < C := by
      simp only [List.length_replicate]
      omega
    have hadd := ChunkedVector.add_eq_not_full (C := C) [] (List.replicate k v) k v hlen
    rw [Nat.mod_eq_of_lt (by omega), List.nil_append, List.nil_append,
      ← List.replicate_succ' k v] at hadd
    rw [List.replicate_succ]
    simp only [ChunkedVector.runAdds, hadd]
    rw [show k + (n + 1) = k + 1 + n by omega]
    exact ih (k + 1) (by omega)

lemma getElem?_isSome_iff {T : Type} {l : List T} {n : Nat} :
    l[n]?.isSome = true ↔ n < l.length := by
  constructor
  · intro h
    by_contra hn
    rw [List.getElem?_eq_none (by omega)] at h
    simp at h
  · intro h
    rw [List.getElem?_eq_getElem h]
    simp

/-! ### Claims about BackedStringView -/

/-- C7: for every `BackedStringView`, `toOwned` returns a string whose bytes
equal the bytes exposed by `view` (`operator*`); for an owned view built
from a buffer it returns exactly that buffer's contents, and for a borrowed
view built from a slice it returns a copy of the slice's contents. -/
theorem backedStringView_toOwned_spec :
    (∀ b : BackedStringView, b.toOwned = b.view) ∧
    (∀ buf : String, (BackedStringView.ofString buf).toOwned = buf) ∧
    (∀ s : String, (BackedStringView.ofStringView s).toOwned = s) := by
  refine ⟨fun b => ?_, fun buf => rfl, fun s => rfl⟩
  cases b with
  | mk data => cases data <;> rfl

/-- C8: `view` (`operator*`) returns the contents of the active alternative
in both states: a view constructed from a slice yields exactly that slice,
and a view constructed from an owned buffer yields exactly that buffer's
contents. -/
theorem backedStringView_view_spec :
    (∀ s : String, (BackedStringView.ofStringView s).view = s) ∧
    (∀ buf : String, (BackedStringView.ofString buf).view = buf) := by
  exact ⟨fun s => rfl, fun buf => rfl⟩

/-- C9: `isOwned` returns `true` exactly on views constructed from an owned
buffer and `false` exactly on views constructed from a borrowed slice. -/
theorem backedStringView_isOwned_spec :
    (∀ buf : String, (BackedStringView.ofString buf).isOwned = true) ∧
    (∀ s : String, (BackedStringView.ofStringView s).isOwned = false) := by
  exact ⟨fun buf => rfl, fun s => rfl⟩

/-! ### Claims about ChunkedVector -/

/-- C1: after any successful sequence of `add` calls on a freshly constructed
`ChunkedVector`, `operator[]` at any index `i` below the number of earlier
`add` calls returns the value passed to the `i`-th `add` call, unaffected by
the `add` calls performed after it; the element is read from chunk
`i / ChunkSize` at offset `i % ChunkSize`. -/
theorem chunkedVector_get_returns_ith_add {T : Type} {C r : Nat}
    {st0 st : ChunkedVector T} (vs ws : List T) (i : Nat)
    (hC : 0 < C) (hC2 : C ≤ 2 ^ 32 - 2)
    (hnew : ChunkedVector.new T C r = some st0)
    (hrun : st0.runAdds C (vs ++ ws) = some st)
    (hi : i < vs.length) :
    st.get C i = vs[i]? ∧ (st.chunks.getD (i / C) [])[i % C]? = vs[i]? := by
  obtain ⟨hinv, -, hvis⟩ := ChunkedVector.reach hC hC2 hnew hrun
  have hget := ChunkedVector.get_eq_visited hC hinv i
  rw [hvis, List.getElem?_append_left hi] at hget
  exact ⟨hget, hget⟩

/-- C1 witness: chunk size 2, adds 10, 20, 30 followed by a later add of 40;
index 2 still reads 30. -/
theorem chunkedVector_get_returns_ith_add_witness :
    (ChunkedVector.mk 4 [[10, 20], [30, 40]] : ChunkedVector Nat).get 2 2 =
      [10, 20, 30][2]? ∧
    ((ChunkedVector.mk 4 [[10, 20], [30, 40]] : ChunkedVector Nat).chunks.getD
      (2 / 2) [])[2 % 2]? = [10, 20, 30][2]? :=
  chunkedVector_get_returns_ith_add [10, 20, 30] [40] 2 (by decide) (by decide)
    (by decide : ChunkedVector.new Nat 2 0 = some (ChunkedVector.mk 0 [[]]))
    (by decide : (ChunkedVector.mk 0 [[]] : ChunkedVector Nat).runAdds 2
      ([10, 20, 30] ++ [40]) = some (ChunkedVector.mk 4 [[10, 20], [30, 40]]))
    (by decide)

/-- C2: after any successful sequence of `N` `add` calls on a freshly
constructed `ChunkedVector`, `size()` returns exactly `N`. -/
theorem chunkedVector_size_eq_num_adds {T : Type} {C r : Nat}
    {st0 st : ChunkedVector T} (vs : List T)
    (hC : 0 < C) (hC2 : C ≤ 2 ^ 32 - 2)
    (hnew : ChunkedVector.new T C r = some st0)
    (hrun : st0.runAdds C vs = some st) :
    st.size = vs.length :=
  (ChunkedVector.reach hC hC2 hnew hrun).2.1

/-- C2 witness: chunk size 2, adds 5, 7, 9; `size()` is 3. -/
theorem chunkedVector_size_eq_num_adds_witness :
    (ChunkedVector.mk 3 [[5, 7], [9]] : ChunkedVector Nat).size =
      [5, 7, 9].length :=
  chunkedVector_size_eq_num_adds [5, 7, 9] (by decide) (by decide)
    (by decide : ChunkedVector.new Nat 2 0 = some (ChunkedVector.mk 0 [[]]))
    (by decide : (ChunkedVector.mk 0 [[]] : ChunkedVector Nat).runAdds 2
      [5, 7, 9] = some (ChunkedVector.mk 3 [[5, 7], [9]]))

/-- C3 counterexample: with chunk size 2 and `N = 0` insertions, the freshly
constructed vector already holds one allocated chunk, while
`ceil(N / C) = (0 + 2 - 1) / 2 = 0`, so the claimed chunk count
`ceil(N / C)` is wrong at `N = 0`. -/
theorem chunkedVector_chunk_count_counterexample :
    ChunkedVector.new Nat 2 0 = some (ChunkedVector.mk 0 [[]]) ∧
    (ChunkedVector.mk 0 [[]] : ChunkedVector Nat).runAdds 2 [] =
      some (ChunkedVector.mk 0 [[]]) ∧
    (ChunkedVector.mk 0 [[]] : ChunkedVector Nat).chunks.length ≠
      (0 + 2 - 1) / 2 := by
  decide

/-- C3 amended: after `N` successful insertions the number of allocated
chunks is `max 1 (ceil(N / C))` — exactly `ceil(N / C)` for `N ≥ 1`, and one
(the chunk allocated by the constructor) for `N = 0`; in particular no chunk
beyond the first is allocated until the previous one holds exactly `C`
elements, since the formula holds after every prefix of the insertions. -/
theorem chunkedVector_chunk_count {T : Type} {C r : Nat}
    {st0 st : ChunkedVector T} (vs : List T)
    (hC : 0 < C) (hC2 : C ≤ 2 ^ 32 - 2)
    (hnew : ChunkedVector.new T C r = some st0)
    (hrun : st0.runAdds C vs = some st) :
    st.chunks.length = max 1 ((vs.length + C - 1) / C) := by
  obtain ⟨hinv, hsize, -⟩ := ChunkedVector.reach hC hC2 hnew hrun
  rw [← hsize]
  exact ChunkedVector.chunks_length_of_invS hC hinv

/-- C3 amended witness: chunk size 2, three insertions give
`max 1 (ceil(3 / 2)) = 2` chunks. -/
theorem chunkedVector_chunk_count_witness :
    (ChunkedVector.mk 3 [[1, 2], [3]] : ChunkedVector Nat).chunks.length =
      max 1 (([1, 2, 3].length + 2 - 1) / 2) :=
  chunkedVector_chunk_count [1, 2, 3] (by decide) (by decide)
    (by decide : ChunkedVector.new Nat 2 0 = some (ChunkedVector.mk 0 [[]]))
    (by decide : (ChunkedVector.mk 0 [[]] : ChunkedVector Nat).runAdds 2
      [1, 2, 3] = some (ChunkedVector.mk 3 [[1, 2], [3]]))

/-- C4 counterexample: with `ChunkSize = 2 ^ 31`, the vector accepts
`2 ^ 31` adds (filling the first chunk), and the next `add` aborts even
though its index `2 ^ 31` and the resulting element count `2 ^ 31 + 1` are
far below the maximum representable 32-bit index `2 ^ 32 - 1`: the guard
`size_ >= UINT32_MAX - ChunkSize` fires up to `ChunkSize` elements early,
refuting the claimed "aborts if and only if appending would exceed the
maximum representable 32-bit index". -/
theorem chunkedVector_add_abort_counterexample :
    ChunkedVector.new Nat (2 ^ 31) 0 = some (ChunkedVector.mk 0 [[]]) ∧
    (ChunkedVector.mk 0 [[]] : ChunkedVector Nat).runAdds (2 ^ 31)
      (List.replicate (2 ^ 31) 0) =
      some (ChunkedVector.mk (2 ^ 31) [List.replicate (2 ^ 31) 0]) ∧
    (ChunkedVector.mk (2 ^ 31) [List.replicate (2 ^ 31) 0]).add (2 ^ 31) 0 =
      AddResult.aborted ∧
    2 ^ 31 + 1 < 2 ^ 32 - 1 := by
  refine ⟨by decide, ?_, ?_, by decide⟩
  · have h := ChunkedVector.runAdds_fill_first (C := 2 ^ 31) (by decide)
      (0 : Nat) (2 ^ 31) 0 (by decide)
    rw [List.replicate_zero, Nat.zero_add] at h
    exact h
  · have h2 := ChunkedVector.add_eq_full_abort (C := 2 ^ 31) []
      (List.replicate (2 ^ 31) (0 : Nat)) (2 ^ 31) 0
      (by rw [List.length_replicate]; exact Nat.lt_irrefl (2 ^ 31))
      (by decide : overflowThreshold (2 ^ 31) ≤ (2 ^ 31 + 1) % 2 ^ 32)
    rw [List.nil_append] at h2
    exact h2

/-- C4 amended: on every reachable state, `add` aborts if and only if the
element count is a positive multiple of `ChunkSize` (the tail chunk is
exactly full, so a new chunk is needed) and the incremented size counter has
reached the conservative guard `2 ^ 32 - 1 - ChunkSize` (the value
`overflowThreshold ChunkSize`), which can fire up to `ChunkSize` elements
before the true 32-bit index limit; in every other case `add` completes
normally and returns a state, a reference and an index. -/
theorem chunkedVector_add_abort_iff {T : Type} {C r : Nat}
    {st0 st : ChunkedVector T} (vs : List T) (v : T)
    (hC : 0 < C) (hC2 : C ≤ 2 ^ 32 - 2)
    (hnew : ChunkedVector.new T C r = some st0)
    (hrun : st0.runAdds C vs = some st) :
    (st.add C v = AddResult.aborted ↔
      0 < st.size ∧ C ∣ st.size ∧ overflowThreshold C ≤ st.size + 1) ∧
    (st.add C v ≠ AddResult.aborted →
      ∃ st' r2 idx, st.add C v = AddResult.ok st' r2 idx) := by
  obtain ⟨hinv, -, -⟩ := ChunkedVector.reach hC hC2 hnew hrun
  refine ⟨ChunkedVector.add_aborted_iff hC hC2 hinv v, ?_⟩
  intro hne
  rcases ChunkedVector.add_ok_or_aborted hinv v with h | h
  · exact h
  · exact absurd h hne

/-- C4 amended witness: chunk size 2 on a reachable 3-element state; the
abort condition is decided at a concrete input. -/
theorem chunkedVector_add_abort_iff_witness :
    (ChunkedVector.mk 3 [[1, 2], [3]] : ChunkedVector Nat).add 2 9 =
      AddResult.aborted ↔
    0 < (ChunkedVector.mk 3 [[1, 2], [3]] : ChunkedVector Nat).size ∧
      2 ∣ (ChunkedVector.mk 3 [[1, 2], [3]] : ChunkedVector Nat).size ∧
      overflowThreshold 2 ≤
        (ChunkedVector.mk 3 [[1, 2], [3]] : ChunkedVector Nat).size + 1 :=
  (chunkedVector_add_abort_iff [1, 2, 3] 9 (by decide) (by decide)
    (by decide : ChunkedVector.new Nat 2 0 = some (ChunkedVector.mk 0 [[]]))
    (by decide : (ChunkedVector.mk 0 [[]] : ChunkedVector Nat).runAdds 2
      [1, 2, 3] = some (ChunkedVector.mk 3 [[1, 2], [3]]))).1

/-- C5: `forEach` visits exactly the inserted elements, once each, in
insertion order (chunk by chunk, offset by offset), and the number of visits
equals `size()`. -/
theorem chunkedVector_forEach_insertion_order {T : Type} {C r : Nat}
    {st0 st : ChunkedVector T} (vs : List T)
    (hC : 0 < C) (hC2 : C ≤ 2 ^ 32 - 2)
    (hnew : ChunkedVector.new T C r = some st0)
    (hrun : st0.runAdds C vs = some st) :
    st.forEachVisited = vs ∧ st.forEachVisited.length = st.size := by
  obtain ⟨-, hsize, hvis⟩ := ChunkedVector.reach hC hC2 hnew hrun
  refine ⟨hvis, ?_⟩
  rw [hvis]
  exact hsize.symm

/-- C5 witness: chunk size 2, adds 4, 5, 6; `forEach` visits 4, 5, 6 and the
visit count is `size()`. -/
theorem chunkedVector_forEach_insertion_order_witness :
    (ChunkedVector.mk 3 [[4, 5], [6]] : ChunkedVector Nat).forEachVisited =
      [4, 5, 6] ∧
    (ChunkedVector.mk 3 [[4, 5], [6]] : ChunkedVector Nat).forEachVisited.length =
      (ChunkedVector.mk 3 [[4, 5], [6]] : ChunkedVector Nat).size :=
  chunkedVector_forEach_insertion_order [4, 5, 6] (by decide) (by decide)
    (by decide : ChunkedVector.new Nat 2 0 = some (ChunkedVector.mk 0 [[]]))
    (by decide : (ChunkedVector.mk 0 [[]] : ChunkedVector Nat).runAdds 2
      [4, 5, 6] = some (ChunkedVector.mk 3 [[4, 5], [6]]))

/-- C6: on every reachable state, `add` returns as the assigned index the
element count immediately before the call, and the set of indices at which
`operator[]` lands on a stored element is dense and contiguous: exactly
`[0, size())`. -/
theorem chunkedVector_indices_dense {T : Type} {C r : Nat}
    {st0 st : ChunkedVector T} (vs : List T)
    (hC : 0 < C) (hC2 : C ≤ 2 ^ 32 - 2)
    (hnew : ChunkedVector.new T C r = some st0)
    (hrun : st0.runAdds C vs = some st) :
    (∀ v st' r2 idx, st.add C v = AddResult.ok st' r2 idx → idx = st.size) ∧
    (∀ i : Nat, (st.get C i).isSome = true ↔ i < st.size) := by
  obtain ⟨hinv, hsize, hvis⟩ := ChunkedVector.reach hC hC2 hnew hrun
  constructor
  · intro v st' r2 idx hok
    exact (ChunkedVector.invS_add_ok hC hC2 hinv v st' r2 idx hok).2.2.2.1
  · intro i
    rw [ChunkedVector.get_eq_visited hC hinv i, getElem?_isSome_iff, hvis]
    simp [ChunkedVector.size, hsize]

/-- C6 witness: chunk size 2, reachable 3-element state; index 2 is valid
and index 3 is not. -/
theorem chunkedVector_indices_dense_witness :
    (((ChunkedVector.mk 3 [[1, 2], [3]] : ChunkedVector Nat).get 2 2).isSome =
      true ↔ 2 < (ChunkedVector.mk 3 [[1, 2], [3]] : ChunkedVector Nat).size) ∧
    (((ChunkedVector.mk 3 [[1, 2], [3]] : ChunkedVector Nat).get 2 3).isSome =
      true ↔ 3 < (ChunkedVector.mk 3 [[1, 2], [3]] : ChunkedVector Nat).size) :=
  ⟨(chunkedVector_indices_dense [1, 2, 3] (by decide) (by decide)
    (by decide : ChunkedVector.new Nat 2 0 = some (ChunkedVector.mk 0 [[]]))
    (by decide : (ChunkedVector.mk 0 [[]] : ChunkedVector Nat).runAdds 2
      [1, 2, 3] = some (ChunkedVector.mk 3 [[1, 2], [3]]))).2 2,
   (chunkedVector_indices_dense [1, 2, 3] (by decide) (by decide)
    (by decide : ChunkedVector.new Nat 2 0 = some (ChunkedVector.mk 0 [[]]))
    (by decide : (ChunkedVector.mk 0 [[]] : ChunkedVector Nat).runAdds 2
      [1, 2, 3] = some (ChunkedVector.mk 3 [[1, 2], [3]]))).2 3⟩

/-- C10: every state reachable by construction followed by `add` calls
satisfies the implicit representation invariant — the chunk table is never
empty, every chunk except the last holds exactly `ChunkSize` elements, the
last chunk holds at most `ChunkSize`, and the sum of the chunk lengths
equals the size counter — and consequently the unchecked index arithmetic of
`operator[]` lands on a stored element for every index below `size()`. -/
theorem chunkedVector_invariant {T : Type} {C r : Nat}
    {st0 st : ChunkedVector T} (vs : List T)
    (hC : 0 < C) (hC2 : C ≤ 2 ^ 32 - 2)
    (hnew : ChunkedVector.new T C r = some st0)
    (hrun : st0.runAdds C vs = some st) :
    st.Invariant C ∧ ∀ i : Nat, i < st.size → (st.get C i).isSome = true := by
  obtain ⟨hinv, hsize, hvis⟩ := ChunkedVector.reach hC hC2 hnew hrun
  refine ⟨ChunkedVector.invS_invariant hinv, ?_⟩
  intro i hi
  rw [ChunkedVector.get_eq_visited hC hinv i, getElem?_isSome_iff, hvis]
  have hs : st.size = vs.length := hsize
  omega

/-- C10 witness: chunk size 2, reachable 3-element state; the invariant
holds and index 1 lands on a stored element. -/
theorem chunkedVector_invariant_witness :
    (ChunkedVector.mk 3 [[1, 2], [3]] : ChunkedVector Nat).Invariant 2 ∧
    ((ChunkedVector.mk 3 [[1, 2], [3]] : ChunkedVector Nat).get 2 1).isSome =
      true :=
  ⟨(chunkedVector_invariant [1, 2, 3] (by decide) (by decide)
    (by decide : ChunkedVector.new Nat 2 0 = some (ChunkedVector.mk 0 [[]]))
    (by decide : (ChunkedVector.mk 0 [[]] : ChunkedVector Nat).runAdds 2
      [1, 2, 3] = some (ChunkedVector.mk 3 [[1, 2], [3]]))).1,
   (chunkedVector_invariant [1, 2, 3] (by decide) (by decide)
    (by decide : ChunkedVector.new Nat 2 0 = some (ChunkedVector.mk 0 [[]]))
    (by decide : (ChunkedVector.mk 0 [[]] : ChunkedVector Nat).runAdds 2
      [1, 2, 3] = some (ChunkedVector.mk 3 [[1, 2], [3]]))).2 1 (by decide)⟩

end Nix
